import Mathlib

/-!
Verification of the statistics aggregator of `jsonstat`
(`src/json_stat_extractor.rs`).

The Rust core is the recursive function `extract_stat_from_json_iter`,
which walks one parsed `serde_json::Value` and produces a `JsonStat`
describing serialized byte sizes.  We shallowly embed the parsed JSON
value type, the statistics types and the aggregation function, and prove
the spec's claims about them.

Modelling notes:
* `usize` arithmetic is modelled on `Nat`.  The one place where overflow
  is reachable (`total_count - 1` evaluated before the `total_count > 0`
  guard, which underflows for an empty array) is tracked separately by a
  checked variant `extract_checked` in which every operation that can
  panic in Rust (overflowing subtraction, `Option::unwrap`, integer
  division) returns `none` on its error branch, as a debug build panics
  there.  The plain `extract` follows release semantics, where the
  wrapped value of the underflowing subtraction is never used.
* Rust's `String::len` (UTF-8 byte length) is `String.utf8ByteSize`.
* `serde_json::Number::to_string` is abstracted by storing the canonical
  decimal rendering of the number in the `num` constructor; only its
  byte length is ever used.
* The itertools `into_group_map_by` grouping uses a `HashMap`, whose
  iteration order is unspecified (seeded per process).  We model the
  merged attribute list in a canonical order of the names; every
  property proved about it is insensitive to the order of that list,
  matching the spec's statement that the order is implementation-defined.
-/

/-- Modelled from the spec: the parsed JSON value (`serde_json::Value`)
is supplied by the external parser, and the iteration order of its
object map depends on the `preserve_order` feature chosen in the crate
manifest, which is not part of the sources.  Following the spec's data
model, an object is carried as the ordered sequence of its
(name, value) pairs — its first-occurrence insertion order — and
`num rendering` carries the canonical decimal textual rendering of the
number, of which only the byte length is used. -/
inductive Json where
  | null : Json
  | bool (b : Bool) : Json
  | num (rendering : String) : Json
  | str (s : String) : Json
  | arr (elems : List Json) : Json
  | obj (members : List (String × Json)) : Json
deriving Repr

/-- `JsonAttrStat` from the source: aggregated statistics for one attribute
name. -/
structure JsonAttrStat where
  name : String
  size : Nat
  count : Nat
  max_size : Nat
  min_size : Nat
deriving Repr, DecidableEq

/-- `JsonValStat` from the source. -/
structure JsonValStat where
  size : Nat
  max_size : Nat
  min_size : Nat
deriving Repr, DecidableEq

/-- `JsonObjStat` from the source. -/
structure JsonObjStat where
  size : Nat
  count : Nat
  max_size : Nat
  min_size : Nat
  attributes : List JsonAttrStat
deriving Repr, DecidableEq

/-- `JsonArrayStat` from the source. -/
structure JsonArrayStat where
  size : Nat
  count : Nat
  max_size : Nat
  min_size : Nat
  attributes : List JsonAttrStat
deriving Repr, DecidableEq

/-- `JsonStat` from the source. -/
inductive JsonStat where
  | ValStat (v : JsonValStat) : JsonStat
  | ObjStat (o : JsonObjStat) : JsonStat
  | ArrayStat (a : JsonArrayStat) : JsonStat
deriving Repr, DecidableEq

def DOUBLE_QUOTES_SIZE : Nat := 2
def CURLY_BRACKETS_SIZE : Nat := 2
def SEMI_COLON_SIZE : Nat := 1

/-- `json_stat_size` from the source. -/
def json_stat_size : JsonStat → Nat
  | .ValStat vs => vs.size
  | .ObjStat vs => vs.size
  | .ArrayStat vs => vs.size

/-- Rust's `bool::to_string`: `"true"` or `"false"`. -/
def boolString (b : Bool) : String :=
  if b then "true" else "false"

/-- The attribute statistics an object member generates
(source lines 89-101): the member value's total size with `count = 1`. -/
def mkAttrStat (name : String) (val_stat : JsonStat) : JsonAttrStat :=
  let val_size := json_stat_size val_stat
  { name := name, size := val_size, count := 1,
    max_size := val_size, min_size := val_size }

/-- The `ObjStat` built from the per-member attribute statistics
(source lines 103-120). -/
def objStatOf (attr_stats : List JsonAttrStat) : JsonStat :=
  let total_size_inside_curly_brackets : Nat :=
    (attr_stats.map (fun attr_stat =>
      attr_stat.size + attr_stat.name.utf8ByteSize
        + DOUBLE_QUOTES_SIZE + SEMI_COLON_SIZE)).sum
  let total_size : Nat := total_size_inside_curly_brackets + CURLY_BRACKETS_SIZE
  .ObjStat { size := total_size, count := 1, max_size := total_size,
             min_size := total_size, attributes := attr_stats }

/-- The attributes an array element contributes to the merge
(source lines 163-169): the attribute list of an `ObjStat`, nothing for
the other variants. -/
def elementAttrs : JsonStat → List JsonAttrStat
  | .ObjStat o => o.attributes
  | _ => []

/-- Merge one group of same-named attribute statistics
(source lines 172-202): summed count, truncated average size, minimum of
the `min_size`s (`unwrap_or(0)`), maximum of the `max_size`s. -/
def mergeGroup (attr_name : String) (attr_stats : List JsonAttrStat) : JsonAttrStat :=
  let attr_count : Nat := (attr_stats.map (fun stat => stat.count)).sum
  let attr_total_sizes : Nat := (attr_stats.map (fun stat => stat.size)).sum
  let attr_avg_size : Nat := attr_total_sizes / attr_stats.length
  let attr_min_size : Nat := ((attr_stats.map (fun stat => stat.min_size)).min?).getD 0
  let attr_max_size : Nat := ((attr_stats.map (fun stat => stat.max_size)).max?).getD 0
  { name := attr_name, size := attr_avg_size, count := attr_count,
    max_size := attr_max_size, min_size := attr_min_size }

/-- Group the collected attribute statistics by name and merge each group
(source lines 161-203).  The `HashMap` iteration order of
`into_group_map_by` is unspecified (seeded per process); the groups are
emitted here in a canonical order, and no property proved below depends
on the order of the merged list. -/
def mergeAttrs (collected : List JsonAttrStat) : List JsonAttrStat :=
  ((collected.map (fun a => a.name)).dedup).map
    (fun n => mergeGroup n (collected.filter (fun a => a.name = n)))

/-- The `ArrayStat` built from the element statistics
(source lines 131-210), release semantics: `size_of_comma` is
`total_count - 1`, whose wrapped value for `total_count = 0` is unused. -/
def arrayStatOf (item_stats : List JsonStat) : JsonStat :=
  let total_count := item_stats.length
  let size_of_comma := total_count - 1
  let size_of_brackets := 2
  let total_size :=
    if total_count > 0 then
      ((item_stats.map json_stat_size).sum) + size_of_comma + size_of_brackets
    else 0
  let min_size :=
    if total_count > 0 then ((item_stats.map json_stat_size).min?).getD 0 else 0
  let max_size :=
    if total_count > 0 then ((item_stats.map json_stat_size).max?).getD 0 else 0
  let attr_stats := mergeAttrs ((item_stats.map elementAttrs).flatten)
  .ArrayStat { size := total_size, count := total_count, max_size := max_size,
               min_size := min_size, attributes := attr_stats }

mutual

/-- The per-value body of `extract_stat_from_json_iter`
(source lines 75-222): the recursive aggregation over one parsed value. -/
def extract : Json → JsonStat
  | .null => .ValStat { size := 4, max_size := 4, min_size := 4 }
  | .str txt =>
      .ValStat { size := txt.utf8ByteSize + DOUBLE_QUOTES_SIZE,
                 max_size := txt.utf8ByteSize + DOUBLE_QUOTES_SIZE,
                 min_size := txt.utf8ByteSize + DOUBLE_QUOTES_SIZE }
  | .obj vals => objStatOf (extractMembers vals)
  | .arr vals => arrayStatOf (extractList vals)
  | .bool val =>
      .ValStat { size := (boolString val).utf8ByteSize,
                 max_size := (boolString val).utf8ByteSize,
                 min_size := (boolString val).utf8ByteSize }
  | .num val =>
      .ValStat { size := val.utf8ByteSize,
                 max_size := val.utf8ByteSize,
                 min_size := val.utf8ByteSize }

/-- The recursion of the object branch over the member list
(source lines 87-102). -/
def extractMembers : List (String × Json) → List JsonAttrStat
  | [] => []
  | attr :: rest => mkAttrStat attr.1 (extract attr.2) :: extractMembers rest

/-- The recursion of the array branch over the element list
(source lines 123-130). -/
def extractList : List Json → List JsonStat
  | [] => []
  | v :: rest => extract v :: extractList rest

end

/-- `extract_stat_from_json_iter` itself: the stream is mapped and the
first element unwrapped (`nth(0).unwrap()`, source lines 225-226);
`none` models the panic of `unwrap` on an empty stream. -/
def extract_stat_from_json_iter (json_value_stream : List Json) : Option JsonStat :=
  (json_value_stream.map extract).head?

/-! ### Checked (debug) semantics

`extract_checked` mirrors `extract` but makes every operation whose error
branch panics in a Rust debug build return `none` there: the overflowing
`usize` subtraction `total_count - 1`, the `Option::unwrap` on the
iterator minima/maxima, and the integer division by the group
cardinality.  (`unwrap_or(0)` in the merge step is total and needs no
check.) -/

/-- Checked `usize` subtraction: `none` models the debug-build overflow
panic of `a - b` when `b > a`. -/
def checkedSub (a b : Nat) : Option Nat :=
  if b ≤ a then some (a - b) else none

/-- Checked `usize` division: `none` models the division-by-zero panic. -/
def checkedDiv (a b : Nat) : Option Nat :=
  if b = 0 then none else some (a / b)

/-- `mergeGroup` with the division by the group cardinality checked. -/
def mergeGroupChecked (attr_name : String) (attr_stats : List JsonAttrStat) :
    Option JsonAttrStat := do
  let attr_count : Nat := (attr_stats.map (fun stat => stat.count)).sum
  let attr_total_sizes : Nat := (attr_stats.map (fun stat => stat.size)).sum
  let attr_avg_size ← checkedDiv attr_total_sizes attr_stats.length
  let attr_min_size : Nat := ((attr_stats.map (fun stat => stat.min_size)).min?).getD 0
  let attr_max_size : Nat := ((attr_stats.map (fun stat => stat.max_size)).max?).getD 0
  pure { name := attr_name, size := attr_avg_size, count := attr_count,
         max_size := attr_max_size, min_size := attr_min_size }

/-- `mergeAttrs` with checked groups. -/
def mergeAttrsChecked (collected : List JsonAttrStat) :
    Option (List JsonAttrStat) :=
  ((collected.map (fun a => a.name)).dedup).mapM
    (fun n => mergeGroupChecked n (collected.filter (fun a => a.name = n)))

/-- `arrayStatOf` with every panicking operation checked.  The
subtraction `total_count - 1` is evaluated before the `total_count > 0`
branches, exactly as in the source. -/
def arrayStatOfChecked (item_stats : List JsonStat) : Option JsonStat := do
  let total_count := item_stats.length
  let size_of_comma ← checkedSub total_count 1
  let size_of_brackets := 2
  let total_size ←
    if total_count > 0 then
      pure (((item_stats.map json_stat_size).sum) + size_of_comma + size_of_brackets)
    else pure 0
  let min_size ←
    if total_count > 0 then (item_stats.map json_stat_size).min? else pure 0
  let max_size ←
    if total_count > 0 then (item_stats.map json_stat_size).max? else pure 0
  let attr_stats ← mergeAttrsChecked ((item_stats.map elementAttrs).flatten)
  pure (.ArrayStat { size := total_size, count := total_count,
                     max_size := max_size, min_size := min_size,
                     attributes := attr_stats })

mutual

/-- `extract` under debug semantics: `none` marks a reachable panic. -/
def extract_checked : Json → Option JsonStat
  | .null => some (.ValStat { size := 4, max_size := 4, min_size := 4 })
  | .str txt =>
      some (.ValStat { size := txt.utf8ByteSize + DOUBLE_QUOTES_SIZE,
                       max_size := txt.utf8ByteSize + DOUBLE_QUOTES_SIZE,
                       min_size := txt.utf8ByteSize + DOUBLE_QUOTES_SIZE })
  | .obj vals => do
      let attr_stats ← extractMembersChecked vals
      pure (objStatOf attr_stats)
  | .arr vals => do
      let item_stats ← extractListChecked vals
      arrayStatOfChecked item_stats
  | .bool val =>
      some (.ValStat { size := (boolString val).utf8ByteSize,
                       max_size := (boolString val).utf8ByteSize,
                       min_size := (boolString val).utf8ByteSize })
  | .num val =>
      some (.ValStat { size := val.utf8ByteSize,
                       max_size := val.utf8ByteSize,
                       min_size := val.utf8ByteSize })

/-- Object-member recursion under debug semantics. -/
def extractMembersChecked : List (String × Json) → Option (List JsonAttrStat)
  | [] => some []
  | attr :: rest => do
      let val_stat ← extract_checked attr.2
      let others ← extractMembersChecked rest
      pure (mkAttrStat attr.1 val_stat :: others)

/-- Array-element recursion under debug semantics. -/
def extractListChecked : List Json → Option (List JsonStat)
  | [] => some []
  | v :: rest => do
      let s ← extract_checked v
      let others ← extractListChecked rest
      pure (s :: others)

end

mutual

/-- No empty array occurs anywhere in the value. -/
def emptyArrFree : Json → Bool
  | .null => true
  | .bool _ => true
  | .num _ => true
  | .str _ => true
  | .arr l => !l.isEmpty && emptyArrFreeList l
  | .obj ms => emptyArrFreeMembers ms

/-- `emptyArrFree` over an element list. -/
def emptyArrFreeList : List Json → Bool
  | [] => true
  | v :: rest => emptyArrFree v && emptyArrFreeList rest

/-- `emptyArrFree` over a member list. -/
def emptyArrFreeMembers : List (String × Json) → Bool
  | [] => true
  | m :: rest => emptyArrFree m.2 && emptyArrFreeMembers rest

end

/-! ### Big-step evaluation relation

`ExtractR v s` holds when one evaluation of the aggregator on the value
`v` can produce the statistics node `s`.  It mirrors the branches of
`extract_stat_from_json_iter` one-to-one; determinism of the code (the
spec's "pure recursive function ... deterministic given the input
tree") is the statement that this relation is functional. -/
inductive ExtractR : Json → JsonStat → Prop where
  | protected null :
      ExtractR .null (.ValStat { size := 4, max_size := 4, min_size := 4 })
  | protected str (txt : String) :
      ExtractR (.str txt)
        (.ValStat { size := txt.utf8ByteSize + DOUBLE_QUOTES_SIZE,
                    max_size := txt.utf8ByteSize + DOUBLE_QUOTES_SIZE,
                    min_size := txt.utf8ByteSize + DOUBLE_QUOTES_SIZE })
  | protected obj (vals : List (String × Json)) (val_stats : List JsonStat)
      (h : List.Forall₂ (fun attr val_stat => ExtractR attr.2 val_stat) vals val_stats) :
      ExtractR (.obj vals)
        (objStatOf (List.zipWith (fun attr val_stat => mkAttrStat attr.1 val_stat)
          vals val_stats))
  | protected arr (vals : List Json) (item_stats : List JsonStat)
      (h : List.Forall₂ ExtractR vals item_stats) :
      ExtractR (.arr vals) (arrayStatOf item_stats)
  | protected bool (val : Bool) :
      ExtractR (.bool val)
        (.ValStat { size := (boolString val).utf8ByteSize,
                    max_size := (boolString val).utf8ByteSize,
                    min_size := (boolString val).utf8ByteSize })
  | protected num (val : String) :
      ExtractR (.num val)
        (.ValStat { size := val.utf8ByteSize,
                    max_size := val.utf8ByteSize,
                    min_size := val.utf8ByteSize })

mutual

/-- Induction over `Json` with element-wise hypotheses for the two list
positions (the nested inductive's recursor, packaged for `∈`). -/
def jsonRecAux {P : Json → Prop} (hnull : P .null) (hbool : ∀ b, P (.bool b))
    (hnum : ∀ r, P (.num r)) (hstr : ∀ s, P (.str s))
    (harr : ∀ l, (∀ v ∈ l, P v) → P (.arr l))
    (hobj : ∀ ms, (∀ m ∈ ms, P m.2) → P (.obj ms)) : ∀ v, P v
  | .null => hnull
  | .bool b => hbool b
  | .num r => hnum r
  | .str s => hstr s
  | .arr l => harr l (jsonRecAuxList hnull hbool hnum hstr harr hobj l)
  | .obj ms => hobj ms (jsonRecAuxMembers hnull hbool hnum hstr harr hobj ms)

/-- Element-list part of `jsonRecAux`. -/
def jsonRecAuxList {P : Json → Prop} (hnull : P .null) (hbool : ∀ b, P (.bool b))
    (hnum : ∀ r, P (.num r)) (hstr : ∀ s, P (.str s))
    (harr : ∀ l, (∀ v ∈ l, P v) → P (.arr l))
    (hobj : ∀ ms, (∀ m ∈ ms, P m.2) → P (.obj ms)) :
    ∀ l : List Json, ∀ v ∈ l, P v
  | [] => fun v hv => absurd hv (List.not_mem_nil v)
  | x :: rest => fun v hv =>
      (List.mem_cons.mp hv).elim
        (fun h => h ▸ jsonRecAux hnull hbool hnum hstr harr hobj x)
        (fun h => jsonRecAuxList hnull hbool hnum hstr harr hobj rest v h)

/-- Member-list part of `jsonRecAux`. -/
def jsonRecAuxMembers {P : Json → Prop} (hnull : P .null) (hbool : ∀ b, P (.bool b))
    (hnum : ∀ r, P (.num r)) (hstr : ∀ s, P (.str s))
    (harr : ∀ l, (∀ v ∈ l, P v) → P (.arr l))
    (hobj : ∀ ms, (∀ m ∈ ms, P m.2) → P (.obj ms)) :
    ∀ ms : List (String × Json), ∀ m ∈ ms, P m.2
  | [] => fun m hm => absurd hm (List.not_mem_nil m)
  | (_, x) :: rest => fun m hm =>
      (List.mem_cons.mp hm).elim
        (fun h => h ▸ jsonRecAux hnull hbool hnum hstr harr hobj x)
        (fun h => jsonRecAuxMembers hnull hbool hnum hstr harr hobj rest m h)

end

/-! ### Basic equations and helper lemmas -/

theorem extractList_eq_map (l : List Json) : extractList l = l.map extract := by
  induction l with
  | nil => rfl
  | cons v rest ih => simp [extractList, ih]

theorem extractMembers_eq_map (ms : List (String × Json)) :
    extractMembers ms = ms.map (fun m => mkAttrStat m.1 (extract m.2)) := by
  induction ms with
  | nil => rfl
  | cons m rest ih => simp [extractMembers, ih]

theorem extract_obj_eq (ms : List (String × Json)) :
    extract (.obj ms) = objStatOf (ms.map (fun m => mkAttrStat m.1 (extract m.2))) := by
  rw [extract, extractMembers_eq_map]

theorem extract_arr_eq (l : List Json) :
    extract (.arr l) = arrayStatOf (l.map extract) := by
  rw [extract, extractList_eq_map]

@[simp] theorem mkAttrStat_name (n : String) (s : JsonStat) :
    (mkAttrStat n s).name = n := rfl

@[simp] theorem mkAttrStat_count (n : String) (s : JsonStat) :
    (mkAttrStat n s).count = 1 := rfl

@[simp] theorem mkAttrStat_size (n : String) (s : JsonStat) :
    (mkAttrStat n s).size = json_stat_size s := rfl

@[simp] theorem mkAttrStat_min_size (n : String) (s : JsonStat) :
    (mkAttrStat n s).min_size = json_stat_size s := rfl

@[simp] theorem mkAttrStat_max_size (n : String) (s : JsonStat) :
    (mkAttrStat n s).max_size = json_stat_size s := rfl

@[simp] theorem mergeGroup_name (n : String) (g : List JsonAttrStat) :
    (mergeGroup n g).name = n := rfl

@[simp] theorem mergeGroup_count (n : String) (g : List JsonAttrStat) :
    (mergeGroup n g).count = (g.map (fun stat => stat.count)).sum := rfl

@[simp] theorem mergeGroup_size (n : String) (g : List JsonAttrStat) :
    (mergeGroup n g).size = (g.map (fun stat => stat.size)).sum / g.length := rfl

@[simp] theorem mergeGroup_min_size (n : String) (g : List JsonAttrStat) :
    (mergeGroup n g).min_size = ((g.map (fun stat => stat.min_size)).min?).getD 0 := rfl

@[simp] theorem mergeGroup_max_size (n : String) (g : List JsonAttrStat) :
    (mergeGroup n g).max_size = ((g.map (fun stat => stat.max_size)).max?).getD 0 := rfl

/-- What an element contributes to the array attribute merge, in terms of
the input element. -/
theorem elementAttrs_extract (v : Json) :
    elementAttrs (extract v) =
      (match v with
       | .obj ms => ms.map (fun m => mkAttrStat m.1 (extract m.2))
       | _ => []) := by
  cases v <;> simp [extract, elementAttrs, objStatOf, arrayStatOf, extractMembers_eq_map]

theorem mergeAttrs_names (c : List JsonAttrStat) :
    (mergeAttrs c).map (fun a => a.name) = (c.map (fun a => a.name)).dedup := by
  simp only [mergeAttrs, List.map_map]
  exact List.map_congr_left (fun n _ => rfl) |>.trans (List.map_id _)

theorem mem_mergeAttrs (c : List JsonAttrStat) (a : JsonAttrStat) :
    a ∈ mergeAttrs c ↔
      ∃ n ∈ (c.map (fun x => x.name)).dedup,
        a = mergeGroup n (c.filter (fun x => x.name = n)) := by
  simp only [mergeAttrs, List.mem_map]
  constructor
  · rintro ⟨n, hn, rfl⟩; exact ⟨n, hn, rfl⟩
  · rintro ⟨n, hn, rfl⟩; exact ⟨n, hn, rfl⟩

/-! ### Claims -/

/-- C6: for every scalar input the aggregator returns a `ValStat` with
`max_size = min_size = size`, the size being 4 for `null`, 4 for `true`,
5 for `false`, the UTF-8 byte length of the raw content plus 2 for a
string (escapes not accounted for), and the length of the canonical
rendering for a number. -/
theorem claim_C6 :
    extract Json.null = .ValStat { size := 4, max_size := 4, min_size := 4 }
    ∧ extract (Json.bool true) = .ValStat { size := 4, max_size := 4, min_size := 4 }
    ∧ extract (Json.bool false) = .ValStat { size := 5, max_size := 5, min_size := 5 }
    ∧ (∀ s : String, extract (Json.str s) =
        .ValStat { size := s.utf8ByteSize + 2, max_size := s.utf8ByteSize + 2,
                   min_size := s.utf8ByteSize + 2 })
    ∧ (∀ r : String, extract (Json.num r) =
        .ValStat { size := r.utf8ByteSize, max_size := r.utf8ByteSize,
                   min_size := r.utf8ByteSize }) :=
  ⟨rfl, rfl, rfl, fun _ => rfl, fun _ => rfl⟩

/-- C3: for every object input, `size` is the sum over members of
(value size + 2 quote bytes + name byte length + 1 colon byte) plus
2 brace bytes; `count = 1`, `max_size = min_size = size`; each member
yields one `AttributeStat` with `count = 1` and
`size = max_size = min_size =` the member value's size; the empty object
yields size 2 and no attributes. -/
theorem claim_C3 (ms : List (String × Json)) :
    extract (.obj ms) = .ObjStat
      { size := (ms.map (fun m =>
          json_stat_size (extract m.2) + 2 + m.1.utf8ByteSize + 1)).sum + 2,
        count := 1,
        max_size := (ms.map (fun m =>
          json_stat_size (extract m.2) + 2 + m.1.utf8ByteSize + 1)).sum + 2,
        min_size := (ms.map (fun m =>
          json_stat_size (extract m.2) + 2 + m.1.utf8ByteSize + 1)).sum + 2,
        attributes := ms.map (fun m =>
          { name := m.1, size := json_stat_size (extract m.2), count := 1,
            max_size := json_stat_size (extract m.2),
            min_size := json_stat_size (extract m.2) }) }
    ∧ extract (.obj []) = .ObjStat
      { size := 2, count := 1, max_size := 2, min_size := 2, attributes := [] } := by
  constructor
  · rw [extract_obj_eq]
    have hsum : ((ms.map (fun m => mkAttrStat m.1 (extract m.2))).map
        (fun attr_stat => attr_stat.size + attr_stat.name.utf8ByteSize
          + DOUBLE_QUOTES_SIZE + SEMI_COLON_SIZE)).sum
        = (ms.map (fun m =>
            json_stat_size (extract m.2) + 2 + m.1.utf8ByteSize + 1)).sum := by
      rw [List.map_map]
      refine congrArg List.sum (List.map_congr_left (fun m _ => ?_))
      simp [mkAttrStat, DOUBLE_QUOTES_SIZE, SEMI_COLON_SIZE]
      omega
    simp only [objStatOf, CURLY_BRACKETS_SIZE, hsum]
    refine congrArg JsonStat.ObjStat ?_
    refine congrArg _ (List.map_congr_left (fun m _ => ?_))
    simp [mkAttrStat]
  · rfl

/-- C4: evaluation of the code at the empty array.  Under release
(wrapping) semantics the result is the all-zero `ArrayStat` of the claim, but the
checked (debug) semantics panics on the unconditional `total_count - 1`
underflow, so "not a failure" does not hold in a debug build. -/
theorem claim_C4 :
    extract (Json.arr []) = .ArrayStat
      { size := 0, count := 0, max_size := 0, min_size := 0, attributes := [] }
    ∧ extract_checked (Json.arr []) = none :=
  ⟨rfl, rfl⟩

/-- C7: for every object input the attribute list of the resulting
`ObjStat` carries the input member names in input (insertion) order. -/
theorem claim_C7 (ms : List (String × Json)) :
    ∃ o : JsonObjStat, extract (.obj ms) = .ObjStat o
      ∧ o.attributes.map (fun a => a.name) = ms.map Prod.fst := by
  rw [extract_obj_eq]
  exact ⟨_, rfl, by simp [objStatOf, List.map_map]⟩

/-- The `getD 0` of a nonempty list's `min?` is its least element. -/
theorem min_getD_spec (l : List Nat) (h : l ≠ []) :
    (l.min?.getD 0) ∈ l ∧ ∀ b ∈ l, (l.min?.getD 0) ≤ b := by
  obtain ⟨a, ha⟩ : ∃ a, l.min? = some a := by
    cases hm : l.min? with
    | none => exact absurd (List.min?_eq_none_iff.mp hm) h
    | some a => exact ⟨a, rfl⟩
  have := List.min?_eq_some_iff'.mp ha
  rw [ha]
  simpa using this

/-- The `getD 0` of a nonempty list's `max?` is its greatest element. -/
theorem max_getD_spec (l : List Nat) (h : l ≠ []) :
    (l.max?.getD 0) ∈ l ∧ ∀ b ∈ l, b ≤ (l.max?.getD 0) := by
  obtain ⟨a, ha⟩ : ∃ a, l.max? = some a := by
    cases hm : l.max? with
    | none => exact absurd (List.max?_eq_none_iff.mp hm) h
    | some a => exact ⟨a, rfl⟩
  have := List.max?_eq_some_iff'.mp ha
  rw [ha]
  simpa using this

/-- Shape of `arrayStatOf` on a nonempty element-statistics list. -/
theorem arrayStatOf_spec (item_stats : List JsonStat) (h : item_stats ≠ []) :
    ∃ st : JsonArrayStat, arrayStatOf item_stats = .ArrayStat st
      ∧ st.count = item_stats.length
      ∧ st.size = (item_stats.map json_stat_size).sum + (item_stats.length - 1) + 2
      ∧ st.min_size ∈ item_stats.map json_stat_size
      ∧ (∀ s ∈ item_stats.map json_stat_size, st.min_size ≤ s)
      ∧ st.max_size ∈ item_stats.map json_stat_size
      ∧ (∀ s ∈ item_stats.map json_stat_size, s ≤ st.max_size)
      ∧ st.attributes = mergeAttrs ((item_stats.map elementAttrs).flatten) := by
  have hpos : 0 < item_stats.length := List.length_pos.mpr h
  have hmapne : item_stats.map json_stat_size ≠ [] := by
    simpa using h
  obtain ⟨hmin_mem, hmin_le⟩ := min_getD_spec _ hmapne
  obtain ⟨hmax_mem, hmax_le⟩ := max_getD_spec _ hmapne
  refine ⟨_, rfl, rfl, ?_, ?_, ?_, ?_, ?_, rfl⟩ <;>
    simp only [arrayStatOf, if_pos hpos]
  · exact hmin_mem
  · exact hmin_le
  · exact hmax_mem
  · exact hmax_le

/-- C2: for a nonempty array input the `ArrayStat` has `count` equal to
the number of elements, `size` equal to the sum of the element sizes plus
`count - 1` comma bytes plus 2 bracket bytes, `min_size` the least and
`max_size` the greatest of the element sizes. -/
theorem claim_C2 (elems : List Json) (h : elems ≠ []) :
    ∃ st : JsonArrayStat, extract (.arr elems) = .ArrayStat st
      ∧ st.count = elems.length
      ∧ st.size = (elems.map (fun e => json_stat_size (extract e))).sum
          + (elems.length - 1) + 2
      ∧ st.min_size ∈ elems.map (fun e => json_stat_size (extract e))
      ∧ (∀ s ∈ elems.map (fun e => json_stat_size (extract e)), st.min_size ≤ s)
      ∧ st.max_size ∈ elems.map (fun e => json_stat_size (extract e))
      ∧ (∀ s ∈ elems.map (fun e => json_stat_size (extract e)), s ≤ st.max_size) := by
  have h' : elems.map extract ≠ [] := by simpa using h
  obtain ⟨st, heq, hc, hs, hm1, hm2, hx1, hx2, _⟩ := arrayStatOf_spec (elems.map extract) h'
  rw [extract_arr_eq]
  refine ⟨st, heq, ?_, ?_, ?_, ?_, ?_, ?_⟩ <;>
    simp only [List.map_map, List.length_map, Function.comp_def] at hc hs hm1 hm2 hx1 hx2 <;>
    assumption

/-- Witness for C2 at the two-element array `[null, false]`. -/
theorem claim_C2_witness :
    ∃ st : JsonArrayStat,
      extract (.arr [Json.null, Json.bool false]) = .ArrayStat st
      ∧ st.count = ([Json.null, Json.bool false] : List Json).length
      ∧ st.size = (([Json.null, Json.bool false] : List Json).map
            (fun e => json_stat_size (extract e))).sum
          + (([Json.null, Json.bool false] : List Json).length - 1) + 2
      ∧ st.min_size ∈ ([Json.null, Json.bool false] : List Json).map
          (fun e => json_stat_size (extract e))
      ∧ (∀ s ∈ ([Json.null, Json.bool false] : List Json).map
          (fun e => json_stat_size (extract e)), st.min_size ≤ s)
      ∧ st.max_size ∈ ([Json.null, Json.bool false] : List Json).map
          (fun e => json_stat_size (extract e))
      ∧ (∀ s ∈ ([Json.null, Json.bool false] : List Json).map
          (fun e => json_stat_size (extract e)), s ≤ st.max_size) :=
  claim_C2 [Json.null, Json.bool false] (List.cons_ne_nil _ _)

/-- The attribute list of a statistics node (empty for a scalar). -/
def statAttributes : JsonStat → List JsonAttrStat
  | .ValStat _ => []
  | .ObjStat o => o.attributes
  | .ArrayStat a => a.attributes

theorem length_mul_le_sum (l : List Nat) (n : Nat) (h : ∀ x ∈ l, n ≤ x) :
    l.length * n ≤ l.sum := by
  induction l with
  | nil => simp
  | cons a t ih =>
      have ha := h a (List.mem_cons_self a t)
      have ht := ih (fun x hx => h x (List.mem_cons_of_mem a hx))
      simp only [List.length_cons, List.sum_cons, Nat.succ_mul]
      omega

theorem sum_le_length_mul (l : List Nat) (n : Nat) (h : ∀ x ∈ l, x ≤ n) :
    l.sum ≤ l.length * n := by
  induction l with
  | nil => simp
  | cons a t ih =>
      have ha := h a (List.mem_cons_self a t)
      have ht := ih (fun x hx => h x (List.mem_cons_of_mem a hx))
      simp only [List.length_cons, List.sum_cons, Nat.succ_mul]
      omega

/-- The merged statistics of a nonempty group whose entries each satisfy
`min_size ≤ size ≤ max_size` satisfy it as well: the truncated average
lies between the least `min_size` and the greatest `max_size`. -/
theorem mergeGroup_bounds (n : String) (g : List JsonAttrStat) (hne : g ≠ [])
    (h : ∀ x ∈ g, x.min_size ≤ x.size ∧ x.size ≤ x.max_size) :
    (mergeGroup n g).min_size ≤ (mergeGroup n g).size
    ∧ (mergeGroup n g).size ≤ (mergeGroup n g).max_size := by
  have hgpos : 0 < g.length := List.length_pos.mpr hne
  have hminne : g.map (fun s => s.min_size) ≠ [] := by simpa using hne
  have hmaxne : g.map (fun s => s.max_size) ≠ [] := by simpa using hne
  obtain ⟨-, hmin_le⟩ := min_getD_spec _ hminne
  obtain ⟨-, hmax_le⟩ := max_getD_spec _ hmaxne
  simp only [mergeGroup_min_size, mergeGroup_size, mergeGroup_max_size]
  set mn := ((g.map (fun s => s.min_size)).min?).getD 0 with hmn
  set mx := ((g.map (fun s => s.max_size)).max?).getD 0 with hmx
  constructor
  · rw [Nat.le_div_iff_mul_le hgpos]
    have : (g.map (fun s => s.size)).length * mn ≤ (g.map (fun s => s.size)).sum := by
      refine length_mul_le_sum _ _ ?_
      intro x hx
      obtain ⟨y, hy, rfl⟩ := List.mem_map.mp hx
      exact le_trans (hmin_le _ (List.mem_map_of_mem _ hy)) (h y hy).1
    simpa [Nat.mul_comm] using this
  · have hsum : (g.map (fun s => s.size)).sum ≤ g.length * mx := by
      have : (g.map (fun s => s.size)).sum ≤ (g.map (fun s => s.size)).length * mx := by
        refine sum_le_length_mul _ _ ?_
        intro x hx
        obtain ⟨y, hy, rfl⟩ := List.mem_map.mp hx
        exact le_trans (h y hy).2 (hmax_le _ (List.mem_map_of_mem _ hy))
      simpa using this
    calc (g.map (fun s => s.size)).sum / g.length
        ≤ (g.length * mx) / g.length := Nat.div_le_div_right hsum
      _ = mx := Nat.mul_div_cancel_left mx hgpos

/-- Every attribute entry collected from array elements is the fresh
one-occurrence statistics of an object member: the three sizes coincide
and the count is 1. -/
theorem collected_attr_triple (l : List Json) :
    ∀ x ∈ ((l.map extract).map elementAttrs).flatten,
      x.min_size = x.size ∧ x.size = x.max_size ∧ x.count = 1 := by
  intro x hx
  obtain ⟨L, hL, hxL⟩ := List.mem_flatten.mp hx
  obtain ⟨st, hst, rfl⟩ := List.mem_map.mp hL
  obtain ⟨e, he, rfl⟩ := List.mem_map.mp hst
  rw [elementAttrs_extract] at hxL
  cases e with
  | obj ms =>
      simp only [List.mem_map] at hxL
      obtain ⟨m, hm, rfl⟩ := hxL
      simp [mkAttrStat]
  | null => simp at hxL
  | bool b => simp at hxL
  | num r => simp at hxL
  | str s => simp at hxL
  | arr l2 => simp at hxL

/-- C9: every `AttributeStat` in a produced statistics node satisfies
`min_size ≤ size ≤ max_size`; the object-attached entries have all three
sizes equal, and for array-merged entries the truncated average of the
group's sizes lies between the group minimum and maximum. -/
theorem claim_C9 :
    (∀ ms : List (String × Json), ∀ a ∈ statAttributes (extract (.obj ms)),
       a.min_size = a.size ∧ a.size = a.max_size)
    ∧ (∀ v : Json, ∀ a ∈ statAttributes (extract v),
       a.min_size ≤ a.size ∧ a.size ≤ a.max_size) := by
  have hobj : ∀ ms : List (String × Json), ∀ a ∈ statAttributes (extract (.obj ms)),
      a.min_size = a.size ∧ a.size = a.max_size := by
    intro ms a ha
    rw [extract_obj_eq] at ha
    simp only [objStatOf, statAttributes, List.mem_map] at ha
    obtain ⟨m, hm, rfl⟩ := ha
    simp [mkAttrStat]
  refine ⟨hobj, ?_⟩
  intro v a ha
  cases v with
  | null => simp [extract, statAttributes] at ha
  | bool b => simp [extract, statAttributes] at ha
  | num r => simp [extract, statAttributes] at ha
  | str s => simp [extract, statAttributes] at ha
  | obj ms =>
      obtain ⟨h1, h2⟩ := hobj ms a ha
      omega
  | arr l =>
      rw [extract_arr_eq] at ha
      simp only [arrayStatOf, statAttributes] at ha
      obtain ⟨n, hn, rfl⟩ := (mem_mergeAttrs _ _).mp ha
      set c := ((l.map extract).map elementAttrs).flatten with hc
      have hne : c.filter (fun x => x.name = n) ≠ [] := by
        have hn' : n ∈ c.map (fun x => x.name) := List.mem_dedup.mp hn
        obtain ⟨x, hxc, hxn⟩ := List.mem_map.mp hn'
        intro hemp
        have : x ∈ c.filter (fun x => x.name = n) :=
          List.mem_filter.mpr ⟨hxc, by simp [hxn]⟩
        simp [hemp] at this
      refine mergeGroup_bounds _ _ hne ?_
      intro x hx
      have hxc : x ∈ c := (List.mem_filter.mp hx).1
      obtain ⟨e1, e2, _⟩ := collected_attr_triple l x hxc
      omega

/-- Witness for C9 at the array `[{"a": null}, {"a": true}]` and its
merged attribute. -/
theorem claim_C9_witness :
    ∀ a ∈ statAttributes (extract (.arr [Json.obj [("a", Json.null)],
        Json.obj [("a", Json.bool true)]])),
      a.min_size ≤ a.size ∧ a.size ≤ a.max_size :=
  claim_C9.2 (.arr [Json.obj [("a", Json.null)], Json.obj [("a", Json.bool true)]])

/-- The attribute entries collected from the element statistics of an
array (the `flat_map` of source lines 161-169). -/
def collectedAttrs (elems : List Json) : List JsonAttrStat :=
  ((elems.map extract).map elementAttrs).flatten

/-- Whether the member names of a parsed object are pairwise distinct.
`serde_json`'s `Map` cannot hold a repeated key, so every value the
parser hands to the aggregator satisfies this on each of its objects. -/
def objNamesNodup : Json → Bool
  | .obj ms => decide (ms.map Prod.fst).Nodup
  | _ => true

/-- Whether a value is an object containing the given attribute name. -/
def hasAttrName : Json → String → Bool
  | .obj ms, n => (ms.map Prod.fst).contains n
  | _, _ => false

theorem extract_arr_attributes (elems : List Json) :
    ∃ st : JsonArrayStat, extract (.arr elems) = .ArrayStat st
      ∧ st.attributes = mergeAttrs (collectedAttrs elems) := by
  rw [extract_arr_eq]
  refine ⟨_, rfl, ?_⟩
  simp only [arrayStatOf, collectedAttrs]

theorem mem_mergeAttrs_elim (c : List JsonAttrStat) (a : JsonAttrStat)
    (ha : a ∈ mergeAttrs c) :
    a = mergeGroup a.name (c.filter (fun x => x.name = a.name))
    ∧ c.filter (fun x => x.name = a.name) ≠ [] := by
  obtain ⟨n, hn, rfl⟩ := (mem_mergeAttrs c a).mp ha
  simp only [mergeGroup_name]
  refine ⟨trivial, ?_⟩
  have hn' : n ∈ c.map (fun x => x.name) := List.mem_dedup.mp hn
  obtain ⟨x, hxc, hxn⟩ := List.mem_map.mp hn'
  intro hemp
  have : x ∈ c.filter (fun x => x.name = n) :=
    List.mem_filter.mpr ⟨hxc, by simp [hxn]⟩
  simp [hemp] at this

theorem nodup_countP_names (names : List String) (n : String) (h : names.Nodup) :
    names.countP (fun m => m = n) = if n ∈ names then 1 else 0 := by
  induction names with
  | nil => simp
  | cons a t ih =>
      obtain ⟨hat, ht⟩ := List.nodup_cons.mp h
      rw [List.countP_cons, ih ht]
      by_cases han : a = n
      · subst han
        simp [hat]
      · have hna : ¬ n = a := fun hh => han hh.symm
        simp [han, hna]

/-- One element's contribution to the number of collected entries named
`n`: one if the element is an object containing `n` (and its names are
distinct, as the parsed map guarantees), zero otherwise. -/
theorem element_contrib_count (e : Json) (n : String) (h : objNamesNodup e = true) :
    (elementAttrs (extract e)).countP (fun x => x.name = n)
      = if hasAttrName e n then 1 else 0 := by
  cases e with
  | obj ms =>
      have hnd : (ms.map Prod.fst).Nodup := by
        simpa [objNamesNodup] using h
      rw [elementAttrs_extract]
      simp only [List.countP_map]
      have : (fun m => decide ((mkAttrStat (Prod.fst m) (extract (Prod.snd m))).name = n))
          = (fun m : String × Json => decide (m.1 = n)) := by
        funext m; simp [mkAttrStat]
      simp only [Function.comp_def, mkAttrStat_name]
      have hmap : ms.countP (fun m => decide (m.1 = n))
          = (ms.map Prod.fst).countP (fun m => m = n) := by
        rw [List.countP_map]; rfl
      rw [hmap, nodup_countP_names _ _ hnd]
      simp only [hasAttrName]
      by_cases hm : n ∈ List.map Prod.fst ms <;> simp [hm, List.elem_iff, List.contains]
  | null => simp [extract, elementAttrs, hasAttrName]
  | bool b => simp [extract, elementAttrs, hasAttrName]
  | num r => simp [extract, elementAttrs, hasAttrName]
  | str s => simp [extract, elementAttrs, hasAttrName]
  | arr l => simp [extract_arr_eq, arrayStatOf, elementAttrs, hasAttrName]

theorem sum_if_eq_countP (elems : List Json) (n : String) :
    (elems.map (fun e => if hasAttrName e n then 1 else 0)).sum
      = elems.countP (fun e => hasAttrName e n) := by
  induction elems with
  | nil => simp
  | cons e t ih =>
      rw [List.map_cons, List.sum_cons, List.countP_cons, ih]
      by_cases he : hasAttrName e n <;> simp [he, Nat.add_comm]

/-- C1: for every array input, the attribute list of the `ArrayStat` is
the merge by name of the entries collected from exactly the object
elements; each merged entry's `count` is the sum of its group's counts,
its `size` the truncated average of the group's sizes, its `min_size`
the least of the group's `min_size`s and its `max_size` the greatest of
the group's `max_size`s; every name occurring in an object element
occurs exactly once, with `count` (given the parsed map's distinct-name
guarantee) the number of elements containing the name. -/
theorem claim_C1 (elems : List Json) :
    ∃ st : JsonArrayStat, extract (.arr elems) = .ArrayStat st
      ∧ collectedAttrs elems = (elems.map (fun e =>
          match e with
          | .obj ms => ms.map (fun m => mkAttrStat m.1 (extract m.2))
          | _ => [])).flatten
      ∧ (st.attributes.map (fun a => a.name)).Nodup
      ∧ (∀ n, n ∈ st.attributes.map (fun a => a.name) ↔
          n ∈ (collectedAttrs elems).map (fun a => a.name))
      ∧ (∀ a ∈ st.attributes,
          (collectedAttrs elems).filter (fun x => x.name = a.name) ≠ []
          ∧ a.count = (((collectedAttrs elems).filter (fun x => x.name = a.name)).map
              (fun x => x.count)).sum
          ∧ a.size = (((collectedAttrs elems).filter (fun x => x.name = a.name)).map
                (fun x => x.size)).sum
              / ((collectedAttrs elems).filter (fun x => x.name = a.name)).length
          ∧ a.min_size ∈ ((collectedAttrs elems).filter (fun x => x.name = a.name)).map
              (fun x => x.min_size)
          ∧ (∀ b ∈ ((collectedAttrs elems).filter (fun x => x.name = a.name)).map
              (fun x => x.min_size), a.min_size ≤ b)
          ∧ a.max_size ∈ ((collectedAttrs elems).filter (fun x => x.name = a.name)).map
              (fun x => x.max_size)
          ∧ (∀ b ∈ ((collectedAttrs elems).filter (fun x => x.name = a.name)).map
              (fun x => x.max_size), b ≤ a.max_size))
      ∧ ((∀ e ∈ elems, objNamesNodup e = true) → ∀ a ∈ st.attributes,
          a.count = elems.countP (fun e => hasAttrName e a.name)) := by
  obtain ⟨st, hst, hattr⟩ := extract_arr_attributes elems
  have hgcount : ∀ a ∈ st.attributes,
      a = mergeGroup a.name ((collectedAttrs elems).filter (fun x => x.name = a.name))
      ∧ (collectedAttrs elems).filter (fun x => x.name = a.name) ≠ [] := by
    intro a ha
    rw [hattr] at ha
    exact mem_mergeAttrs_elim _ _ ha
  refine ⟨st, hst, ?_, ?_, ?_, ?_, ?_⟩
  · rw [collectedAttrs, List.map_map]
    exact congrArg List.flatten (List.map_congr_left (fun e _ => elementAttrs_extract e))
  · rw [hattr, mergeAttrs_names]
    exact List.nodup_dedup _
  · intro n
    rw [hattr, mergeAttrs_names]
    exact List.mem_dedup
  · intro a ha
    obtain ⟨hEq, hne⟩ := hgcount a ha
    set g := (collectedAttrs elems).filter (fun x => x.name = a.name) with hg
    have hminne : g.map (fun x => x.min_size) ≠ [] := by simpa using hne
    have hmaxne : g.map (fun x => x.max_size) ≠ [] := by simpa using hne
    obtain ⟨hmin_mem, hmin_le⟩ := min_getD_spec _ hminne
    obtain ⟨hmax_mem, hmax_le⟩ := max_getD_spec _ hmaxne
    have hcnt : a.count = (g.map (fun x => x.count)).sum := by
      conv_lhs => rw [hEq]
      exact mergeGroup_count _ _
    have hsize : a.size = (g.map (fun x => x.size)).sum / g.length := by
      conv_lhs => rw [hEq]
      exact mergeGroup_size _ _
    have hmin_eq : a.min_size = ((g.map (fun x => x.min_size)).min?).getD 0 := by
      conv_lhs => rw [hEq]
      exact mergeGroup_min_size _ _
    have hmax_eq : a.max_size = ((g.map (fun x => x.max_size)).max?).getD 0 := by
      conv_lhs => rw [hEq]
      exact mergeGroup_max_size _ _
    refine ⟨hne, hcnt, hsize, ?_, ?_, ?_, ?_⟩
    · rw [hmin_eq]
      exact hmin_mem
    · intro b hb
      rw [hmin_eq]
      exact hmin_le b hb
    · rw [hmax_eq]
      exact hmax_mem
    · intro b hb
      rw [hmax_eq]
      exact hmax_le b hb
  · intro hnd a ha
    obtain ⟨hEq, hne⟩ := hgcount a ha
    set g := (collectedAttrs elems).filter (fun x => x.name = a.name) with hg
    have hcnt : a.count = (g.map (fun x => x.count)).sum := by
      conv_lhs => rw [hEq]
      exact mergeGroup_count _ _
    have hones : g.map (fun x => x.count) = g.map (fun _ => 1) :=
      List.map_congr_left (fun x hx =>
        (collected_attr_triple elems x ((List.mem_filter.mp hx).1)).2.2)
    have hlen : a.count = g.length := by
      rw [hcnt, hones]
      simp
    have hcountP : g.length = (collectedAttrs elems).countP (fun x => x.name = a.name) := by
      rw [List.countP_eq_length_filter]
    have hflat : (collectedAttrs elems).countP (fun x => x.name = a.name)
        = (elems.map (fun e =>
            (elementAttrs (extract e)).countP (fun x => x.name = a.name))).sum := by
      rw [collectedAttrs, List.countP_flatten, List.map_map, List.map_map]
      rfl
    have hiff : (elems.map (fun e =>
          (elementAttrs (extract e)).countP (fun x => x.name = a.name))).sum
        = (elems.map (fun e => if hasAttrName e a.name then 1 else 0)).sum := by
      refine congrArg List.sum (List.map_congr_left (fun e he => ?_))
      exact element_contrib_count e a.name (hnd e he)
    rw [hlen, hcountP, hflat, hiff, sum_if_eq_countP]

/-- Witness for C1 at the repository's own test input
`[{"test":"test"}, {"test":"test3","b":true}]`, with the distinct-name
hypothesis discharged concretely. -/
theorem claim_C1_witness :
    ∃ st : JsonArrayStat,
      extract (.arr [Json.obj [("test", Json.str "test")],
        Json.obj [("test", Json.str "test3"), ("b", Json.bool true)]]) = .ArrayStat st
      ∧ (∀ e ∈ [Json.obj [("test", Json.str "test")],
          Json.obj [("test", Json.str "test3"), ("b", Json.bool true)]],
          objNamesNodup e = true)
      ∧ (∀ a ∈ st.attributes,
          a.count = ([Json.obj [("test", Json.str "test")],
            Json.obj [("test", Json.str "test3"), ("b", Json.bool true)]].countP
              (fun e => hasAttrName e a.name))) := by
  obtain ⟨st, hst, -, -, -, -, himp⟩ := claim_C1 [Json.obj [("test", Json.str "test")],
    Json.obj [("test", Json.str "test3"), ("b", Json.bool true)]]
  have hnd : ∀ e ∈ [Json.obj [("test", Json.str "test")],
      Json.obj [("test", Json.str "test3"), ("b", Json.bool true)]],
      objNamesNodup e = true := by decide
  exact ⟨st, hst, hnd, himp hnd⟩

/-- C10: with the parsed map's guarantee that an object's member names
are pairwise distinct, the object's attribute names are pairwise
distinct, each object element contributes at most one collected entry
per name during array aggregation, and every merge group is nonempty. -/
theorem claim_C10 :
    (∀ ms : List (String × Json), (ms.map Prod.fst).Nodup →
        ((statAttributes (extract (.obj ms))).map (fun a => a.name)).Nodup)
    ∧ (∀ ms : List (String × Json), (ms.map Prod.fst).Nodup → ∀ n : String,
        ((elementAttrs (extract (.obj ms))).filter (fun x => x.name = n)).length ≤ 1)
    ∧ (∀ elems : List Json, ∀ a ∈ statAttributes (extract (.arr elems)),
        (collectedAttrs elems).filter (fun x => x.name = a.name) ≠ []) := by
  refine ⟨?_, ?_, ?_⟩
  · intro ms hnd
    rw [extract_obj_eq]
    simpa [objStatOf, statAttributes, List.map_map] using hnd
  · intro ms hnd n
    have hc := element_contrib_count (.obj ms) n
      (by simpa [objNamesNodup] using hnd)
    rw [← List.countP_eq_length_filter, hc]
    split <;> omega
  · intro elems a ha
    obtain ⟨st, hst, hattr⟩ := extract_arr_attributes elems
    rw [hst] at ha
    simp only [statAttributes] at ha
    rw [hattr] at ha
    exact (mem_mergeAttrs_elim _ _ ha).2

/-- Witness for C10 at the one-member object `{"a": null}`. -/
theorem claim_C10_witness :
    ((statAttributes (extract (.obj [("a", Json.null)]))).map (fun a => a.name)).Nodup
    ∧ ((elementAttrs (extract (.obj [("a", Json.null)]))).filter
        (fun x => x.name = "a")).length ≤ 1 :=
  ⟨claim_C10.1 _ (by decide), claim_C10.2.1 _ (by decide) "a"⟩

/-! ### Totality of the checked semantics away from empty arrays -/

theorem mapM_option_eq_map {α β : Type} (f : α → Option β) (g : α → β)
    (l : List α) (h : ∀ x ∈ l, f x = some (g x)) :
    l.mapM f = some (l.map g) := by
  induction l with
  | nil => rfl
  | cons a t ih =>
      rw [List.mapM_cons, h a (List.mem_cons_self a t),
        ih (fun x hx => h x (List.mem_cons_of_mem a hx))]
      rfl

theorem mergeGroupChecked_eq (n : String) (g : List JsonAttrStat) (h : g ≠ []) :
    mergeGroupChecked n g = some (mergeGroup n g) := by
  have hlen : g.length ≠ 0 := by
    simpa [List.length_eq_zero] using h
  simp [mergeGroupChecked, mergeGroup, checkedDiv, hlen]

/-- The merge step never panics: every group it forms is nonempty, so
the division by the group cardinality is safe. -/
theorem mergeAttrsChecked_eq (c : List JsonAttrStat) :
    mergeAttrsChecked c = some (mergeAttrs c) := by
  refine mapM_option_eq_map _ _ _ ?_
  intro n hn
  refine mergeGroupChecked_eq n _ ?_
  have hn' : n ∈ c.map (fun x => x.name) := List.mem_dedup.mp hn
  obtain ⟨x, hxc, hxn⟩ := List.mem_map.mp hn'
  intro hemp
  have : x ∈ c.filter (fun x => x.name = n) :=
    List.mem_filter.mpr ⟨hxc, by simp [hxn]⟩
  simp [hemp] at this

theorem arrayStatOfChecked_eq (item_stats : List JsonStat) (h : item_stats ≠ []) :
    arrayStatOfChecked item_stats = some (arrayStatOf item_stats) := by
  have hpos : 0 < item_stats.length := List.length_pos.mpr h
  have hsub : checkedSub item_stats.length 1 = some (item_stats.length - 1) := by
    have h1 : 1 ≤ item_stats.length := hpos
    simp [checkedSub, h1]
  have hmapne : item_stats.map json_stat_size ≠ [] := by simpa using h
  obtain ⟨mn, hmn⟩ : ∃ mn, (item_stats.map json_stat_size).min? = some mn := by
    cases hm : (item_stats.map json_stat_size).min? with
    | none => exact absurd (List.min?_eq_none_iff.mp hm) hmapne
    | some mn => exact ⟨mn, rfl⟩
  obtain ⟨mx, hmx⟩ : ∃ mx, (item_stats.map json_stat_size).max? = some mx := by
    cases hm : (item_stats.map json_stat_size).max? with
    | none => exact absurd (List.max?_eq_none_iff.mp hm) hmapne
    | some mx => exact ⟨mx, rfl⟩
  simp [arrayStatOfChecked, arrayStatOf, hsub, hpos, hmn, hmx,
    mergeAttrsChecked_eq]

theorem emptyArrFreeList_mem (l : List Json) (h : emptyArrFreeList l = true) :
    ∀ v ∈ l, emptyArrFree v = true := by
  induction l with
  | nil => intro v hv; simp at hv
  | cons x t ih =>
      rw [emptyArrFreeList, Bool.and_eq_true] at h
      intro v hv
      rcases List.mem_cons.mp hv with rfl | hv'
      · exact h.1
      · exact ih h.2 v hv'

theorem emptyArrFreeMembers_mem (ms : List (String × Json))
    (h : emptyArrFreeMembers ms = true) : ∀ m ∈ ms, emptyArrFree m.2 = true := by
  induction ms with
  | nil => intro m hm; simp at hm
  | cons x t ih =>
      rw [emptyArrFreeMembers, Bool.and_eq_true] at h
      intro m hm
      rcases List.mem_cons.mp hm with rfl | hm'
      · exact h.1
      · exact ih h.2 m hm'

theorem extractMembersChecked_eq (ms : List (String × Json))
    (h : ∀ m ∈ ms, extract_checked m.2 = some (extract m.2)) :
    extractMembersChecked ms = some (extractMembers ms) := by
  induction ms with
  | nil => rfl
  | cons m t ih =>
      rw [extractMembersChecked, h m (List.mem_cons_self m t),
        ih (fun x hx => h x (List.mem_cons_of_mem m hx))]
      rfl

theorem extractListChecked_eq (l : List Json)
    (h : ∀ v ∈ l, extract_checked v = some (extract v)) :
    extractListChecked l = some (extractList l) := by
  induction l with
  | nil => rfl
  | cons v t ih =>
      rw [extractListChecked, h v (List.mem_cons_self v t),
        ih (fun x hx => h x (List.mem_cons_of_mem v hx))]
      rfl

/-- Away from empty arrays the debug semantics panics nowhere and agrees
with the release semantics. -/
theorem extract_checked_total (v : Json) (h : emptyArrFree v = true) :
    extract_checked v = some (extract v) := by
  induction v using jsonRecAux with
  | hnull => rfl
  | hbool b => rfl
  | hnum r => rfl
  | hstr s => rfl
  | hobj ms ih =>
      have hm := emptyArrFreeMembers_mem ms (by simpa [emptyArrFree] using h)
      rw [extract_checked, extractMembersChecked_eq ms (fun m hmem => ih m hmem (hm m hmem))]
      rw [extract]
      rfl
  | harr l ih =>
      rw [emptyArrFree, Bool.and_eq_true] at h
      have hl := emptyArrFreeList_mem l h.2
      have hne : l ≠ [] := by
        intro hemp
        subst hemp
        simp at h
      rw [extract_checked, extractListChecked_eq l (fun v hv => ih v hv (hl v hv))]
      have hne' : extractList l ≠ [] := by
        rw [extractList_eq_map]
        simpa using hne
      rw [extract]
      simpa using arrayStatOfChecked_eq _ hne'

/-- C5: under debug semantics the aggregation panics on the value
`[[]]` — the inner empty array reaches the `total_count - 1` underflow —
while on every value free of empty arrays all partial operations take
their safe branch and the checked run returns the release-semantics
result. -/
theorem claim_C5 :
    extract_checked (Json.arr [Json.arr []]) = none
    ∧ (∀ v : Json, emptyArrFree v = true →
        extract_checked v = some (extract v))
    ∧ (∀ v : Json, extract_stat_from_json_iter [v] = some (extract v)) :=
  ⟨rfl, fun v h => extract_checked_total v h, fun _ => rfl⟩

/-- Witness for C5 at the empty-array-free value `{"a": [null]}`. -/
theorem claim_C5_witness :
    emptyArrFree (Json.obj [("a", Json.arr [Json.null])]) = true
    ∧ extract_checked (Json.obj [("a", Json.arr [Json.null])])
        = some (extract (Json.obj [("a", Json.arr [Json.null])])) :=
  ⟨by decide, claim_C5.2.1 _ (by decide)⟩

/-! ### Determinism -/

theorem forall₂_of_map {α β : Type} (R : α → β → Prop) (f : α → β) (l : List α)
    (h : ∀ x ∈ l, R x (f x)) : List.Forall₂ R l (l.map f) := by
  induction l with
  | nil => exact List.Forall₂.nil
  | cons a t ih =>
      exact List.Forall₂.cons (h a (List.mem_cons_self a t))
        (ih (fun x hx => h x (List.mem_cons_of_mem a hx)))

theorem forall₂_eq_map {α β : Type} (R : α → β → Prop) (f : α → β) :
    ∀ (l : List α) (l2 : List β), List.Forall₂ R l l2 →
      (∀ x ∈ l, ∀ y, R x y → y = f x) → l2 = l.map f := by
  intro l l2 hR
  induction hR with
  | nil => intro _; rfl
  | cons hxy _ ih =>
      intro h
      rw [List.map_cons, ih (fun x hx y hy => h x (List.mem_cons_of_mem _ hx) y hy)]
      rw [h _ (List.mem_cons_self _ _) _ hxy]

theorem map_mkAttrStat_eq_zipWith (ms : List (String × Json)) :
    ms.map (fun m => mkAttrStat m.1 (extract m.2))
      = List.zipWith (fun attr val_stat => mkAttrStat attr.1 val_stat) ms
          (ms.map (fun m => extract m.2)) := by
  induction ms with
  | nil => rfl
  | cons m t ih => simp [ih]

theorem extractR_total (v : Json) : ExtractR v (extract v) := by
  induction v using jsonRecAux with
  | hnull => exact ExtractR.null
  | hbool b => exact ExtractR.bool b
  | hnum r => exact ExtractR.num r
  | hstr s => exact ExtractR.str s
  | harr l ih =>
      rw [extract_arr_eq]
      exact ExtractR.arr l (l.map extract) (forall₂_of_map _ _ _ ih)
  | hobj ms ih =>
      rw [extract_obj_eq, map_mkAttrStat_eq_zipWith]
      exact ExtractR.obj ms (ms.map (fun m => extract m.2))
        (forall₂_of_map _ _ _ ih)

theorem extractR_det (v : Json) : ∀ s : JsonStat, ExtractR v s → s = extract v := by
  induction v using jsonRecAux with
  | hnull => intro s hs; cases hs; rfl
  | hbool b => intro s hs; cases hs; rfl
  | hnum r => intro s hs; cases hs; rfl
  | hstr s => intro s' hs; cases hs; rfl
  | harr l ih =>
      intro s hs
      cases hs with
      | arr _ item_stats hf =>
          rw [forall₂_eq_map ExtractR extract l item_stats hf ih, extract_arr_eq]
  | hobj ms ih =>
      intro s hs
      cases hs with
      | obj _ val_stats hf =>
          rw [forall₂_eq_map _ (fun m => extract m.2) ms val_stats hf
              (fun m hm y hy => ih m hm y hy),
            extract_obj_eq, map_mkAttrStat_eq_zipWith]

/-- C8: the aggregator is deterministic — the big-step evaluation
relation mirroring `extract_stat_from_json_iter` relates every input to
exactly one statistics node (and it does relate every input to the
function's result). -/
theorem claim_C8 :
    (∀ v : Json, ExtractR v (extract v))
    ∧ (∀ (v : Json) (s₁ s₂ : JsonStat),
        ExtractR v s₁ → ExtractR v s₂ → s₁ = s₂) :=
  ⟨extractR_total, fun v s₁ s₂ h₁ h₂ =>
    (extractR_det v s₁ h₁).trans (extractR_det v s₂ h₂).symm⟩

/-- Witness for C8: the two evaluations at `null` agree. -/
theorem claim_C8_witness :
    JsonStat.ValStat { size := 4, max_size := 4, min_size := 4 } = extract Json.null :=
  claim_C8.2 Json.null _ _ ExtractR.null (claim_C8.1 Json.null)

/-- Witness for C3 at the empty object. -/
theorem claim_C3_witness :
    extract (.obj []) = .ObjStat
      { size := 2, count := 1, max_size := 2, min_size := 2, attributes := [] } :=
  (claim_C3 []).2

/-- Witness for C6 at the string `"test"`. -/
theorem claim_C6_witness :
    extract (Json.str "test") =
      .ValStat { size := "test".utf8ByteSize + 2, max_size := "test".utf8ByteSize + 2,
                 min_size := "test".utf8ByteSize + 2 } :=
  claim_C6.2.2.2.1 "test"

/-- Witness for C7 at the one-member object `{"a": null}`. -/
theorem claim_C7_witness :
    ∃ o : JsonObjStat, extract (.obj [("a", Json.null)]) = .ObjStat o
      ∧ o.attributes.map (fun a => a.name) = [("a", Json.null)].map Prod.fst :=
  claim_C7 [("a", Json.null)]
